import Mathlib

/-!
Shallow embedding of `spoolq` (src/lib.rs): a durable filesystem-backed queue.

The spool directory is modelled as a list of entries (file name, file content),
the enumeration order of the list standing for the directory enumeration order.
File contents are byte lists; the serde_json codec is abstracted as an
encode/decode pair. `Queue<T>` state is the per-handle counter `seq` plus the
directory. Failure points of `push` (exclusive create, serialized write, final
rename) are injected through a `PushOutcome` parameter; `pop`'s only modelled
failure is a decode failure, which is the failure point the claims are about.
-/

namespace Spoolq

/-- File contents: a list of bytes (serde_json output is opaque here). -/
abbrev Bytes := List Nat

/-- One directory entry of the spool: a file name and its content. -/
structure Entry where
  name : String
  content : Bytes
deriving DecidableEq

/-- The in-memory queue handle state (`Queue<T>`): the per-handle counter
`seq` (a `u32` in the source, modelled as a `Nat` that every increment in
`push` reduces modulo `2^32`) and the spool directory contents. The spool
path is immaterial to the model since all names are relative to it. -/
structure QueueState where
  seq : Nat
  dir : List Entry
deriving DecidableEq

/-- Errors surfaced by queue operations. In the Rust code everything is an
`std::io::Error`; we keep decode failures (`serde_json` errors routed through
`to_ioerror`) distinguishable from plain I/O failures. -/
inductive QError where
  | ioError
  | decodeError
deriving DecidableEq

/-! ## File-name machinery (Rust `Path::extension` / `Path::file_stem`)

Rust splits a file name at the last `.`; a name whose only dot is the leading
character (like `.hidden`) has no extension. We implement the split on the
reversed character list: `splitAtDotRev` finds the first dot from the end. -/

/-- On a REVERSED character list, split at the first `'.'`: returns
(reversed extension chars before the dot, reversed stem chars after it). -/
def splitAtDotRev : List Char → Option (List Char × List Char)
  | [] => none
  | c :: cs =>
    if c = '.' then some ([], cs)
    else
      match splitAtDotRev cs with
      | some (e, st) => some (c :: e, st)
      | none => none

/-- Rust `Path::extension` restricted to a bare file name: the part after the
last dot, unless the dot is the leading character. -/
def extension (name : String) : Option String :=
  match splitAtDotRev name.data.reverse with
  | some (extRev, stemRev) =>
    if stemRev = [] then none else some (String.mk extRev.reverse)
  | none => none

/-- Rust `Path::file_stem` restricted to a bare file name. -/
def fileStem (name : String) : String :=
  match splitAtDotRev name.data.reverse with
  | some (_, stemRev) =>
    if stemRev = [] then name else String.mk stemRev.reverse
  | none => name

/-- Rust `Path::with_extension` on a bare file name: replace (or append) the
extension. -/
def withExtension (name e : String) : String :=
  fileStem name ++ "." ++ e

/-- A string containing no dot: such a file name has no extension, i.e. the
item is in the Visible state. -/
def noDot (s : String) : Prop := '.' ∉ s.data

instance (s : String) : Decidable (noDot s) := by
  unfold noDot; infer_instance

/-! ## The order-key: `format!("{:016x}", self.seq)` -/

/-- One lowercase hex digit, as Rust's `{:x}` prints it. -/
def hexDigit (n : Nat) : Char :=
  if n < 10 then Char.ofNat (48 + n) else Char.ofNat (87 + n)

/-- The low `k` hex digits of `n`, most significant first. -/
def hexDigitsAux : Nat → Nat → List Char
  | 0, _ => []
  | k + 1, n => hexDigitsAux k (n / 16) ++ [hexDigit (n % 16)]

/-- `format!("{:016x}", seq)`: sixteen zero-padded lowercase hex digits.
Exact for every value of the Rust `u32` counter (indeed for all
`seq < 16^16`). -/
def hex16 (n : Nat) : String := String.mk (hexDigitsAux 16 n)

/-- The base item file name allocated by `push`:
`format!("{:016x}-{}", self.seq, rand_string())`. -/
def itemBase (seq : Nat) (nonce : String) : String :=
  hex16 seq ++ "-" ++ nonce

/-! ## push (src/lib.rs lines 39-56) -/

/-- Which step of `push` fails, if any: the exclusive create of the `.inc`
file, the serialized write into it (leaving the partially written bytes
behind), or the final rename to the visible name. -/
inductive PushOutcome where
  | createFail
  | writeFail (written : Bytes)
  | renameFail
  | ok
deriving DecidableEq

/-- `Queue::push`: stage the encoded item at `<base>.inc` (exclusive create),
then atomically rename to the suffix-less visible name and increment `seq`.
The counter is a `u32` in the source, so `self.seq += 1` wraps modulo `2^32`
(release-build semantics), written here as an explicit `% 2 ^ 32`. Each early
`?` return leaves the directory exactly as the failing step left it and the
counter untouched. -/
def push {T : Type} (enc : T → Bytes) (nonce : String) (o : PushOutcome)
    (q : QueueState) (item : T) : Except QError Unit × QueueState :=
  let base := itemBase q.seq nonce
  let incName := withExtension base "inc"
  match o with
  | .createFail => (.error .ioError, q)
  | .writeFail written =>
      (.error .ioError, { q with dir := q.dir ++ [⟨incName, written⟩] })
  | .renameFail =>
      (.error .ioError, { q with dir := q.dir ++ [⟨incName, enc item⟩] })
  | .ok =>
      (.ok (), { seq := (q.seq + 1) % 2 ^ 32, dir := q.dir ++ [⟨base, enc item⟩] })

/-! ## pop (src/lib.rs lines 67-90) -/

/-- The loop body of `Queue::pop` over the directory enumeration: skip every
entry that has an extension; at the first extension-less entry, open it and
decode it, and only if decoding succeeds rename it to the `.pop` staging name
and return the payload. A decode failure returns the error at once, leaving
the directory untouched. -/
def popGo {T : Type} (dec : Bytes → Option T) :
    List Entry → Except QError (Option T) × List Entry
  | [] => (.ok none, [])
  | e :: rest =>
    match extension e.name with
    | some _ =>
      ((popGo dec rest).1, e :: (popGo dec rest).2)
    | none =>
      match dec e.content with
      | none => (.error .decodeError, e :: rest)
      | some item =>
        (.ok (some item), ⟨withExtension e.name "pop", e.content⟩ :: rest)

/-- `Queue::pop`. -/
def pop {T : Type} (dec : Bytes → Option T) (q : QueueState) :
    Except QError (Option T) × QueueState :=
  ((popGo dec q.dir).1, { q with dir := (popGo dec q.dir).2 })

/-! ## flush (src/lib.rs lines 93-113) -/

/-- `Queue::flush`: delete every entry whose extension is exactly `pop`;
entries with any other extension, or none, are skipped. -/
def flush (q : QueueState) : QueueState :=
  { q with dir := q.dir.filter fun e => !(extension e.name = some "pop" : Bool) }

/-! ## recover (src/lib.rs lines 121-140) -/

/-- The loop body of `Queue::recover` on one entry: an entry whose extension
exists and is not `pop` is skipped; every other entry is renamed to its file
stem (for an extension-less entry this renames the file to itself). -/
def recoverEntry (e : Entry) : Entry :=
  match extension e.name with
  | some ext => if ext = "pop" then ⟨fileStem e.name, e.content⟩ else e
  | none => ⟨fileStem e.name, e.content⟩

/-- `Queue::recover`. -/
def recover (q : QueueState) : QueueState :=
  { q with dir := q.dir.map recoverEntry }

/-! ## pull: the ordered selector -/

/-- Strict lexicographic order on character lists by code point. -/
def lexLt : List Char → List Char → Bool
  | _, [] => false
  | [], _ :: _ => true
  | a :: as, b :: bs =>
    if a.toNat < b.toNat then true
    else if b.toNat < a.toNat then false
    else lexLt as bs

/-- `a` sorts no later than `b` by file name. -/
def nameLe (a b : Entry) : Bool := !lexLt b.name.data a.name.data

/-- Insert an entry into a name-sorted list. -/
def insertEntry (e : Entry) : List Entry → List Entry
  | [] => [e]
  | f :: fs => if nameLe e f then e :: f :: fs else f :: insertEntry e fs

/-- Sort entries by file name ascending (insertion sort). -/
def sortByName : List Entry → List Entry
  | [] => []
  | e :: es => insertEntry e (sortByName es)

/-- Modelled from the spec: the ordered/fair selector `pull` is absent from
src/lib.rs; per spec sections 4.2 and 6 it enumerates all entries, filters to
those without a state suffix, sorts by file name ascending, selects the
lexicographically smallest, decodes it and deletes it on read (ordered,
non-ledgered, delete-on-read); it returns empty when no eligible entry
exists. -/
def pull {T : Type} (dec : Bytes → Option T) (q : QueueState) :
    Except QError (Option T) × QueueState :=
  let visibles := q.dir.filter fun e => (extension e.name).isNone
  match sortByName visibles with
  | [] => (.ok none, q)
  | e :: _ =>
    match dec e.content with
    | none => (.error .decodeError, q)
    | some item =>
      (.ok (some item), { q with dir := q.dir.filter fun f => !(f.name = e.name : Bool) })

/-! ## Helpers for the claims -/

/-- The names of the Visible (extension-less) entries of a directory, in
enumeration order. -/
def visibleNames (dir : List Entry) : List String :=
  (dir.filter fun e => (extension e.name).isNone).map Entry.name

/-- A concrete payload codec used for witnesses: a natural number encoded as
the singleton byte list. -/
def natEnc (n : Nat) : Bytes := [n]

/-- Decoder matching `natEnc`; any other byte list is malformed. -/
def natDec : Bytes → Option Nat
  | [n] => some n
  | _ => none

/-- Push the given payloads in order through a single handle, every push
succeeding; one fixed nonce suffices since the counter order-key already keeps
the names distinct. -/
def pushAll (items : List Nat) (q : QueueState) : QueueState :=
  items.foldl (fun s i => (push natEnc "n" .ok s i).2) q

/-- The spool entry produced when the handle pushes payload `i` at counter
value `i` (as happens when 0, 1, 2, ... are pushed in order from a fresh
handle). -/
def seqEntry (i : Nat) : Entry :=
  ⟨itemBase i "n", natEnc i⟩

/-- Call `pull` k times in sequence, collecting each call's result. -/
def pullRun : Nat → QueueState → List (Except QError (Option Nat))
  | 0, _ => []
  | k + 1, q => (pull natDec q).1 :: pullRun k (pull natDec q).2

/-! ## Lemmas on the file-name machinery -/

theorem data_append (s t : String) : (s ++ t).data = s.data ++ t.data := rfl

theorem mk_data (s : String) : String.mk s.data = s := rfl

theorem splitAtDotRev_of_not_mem (cs : List Char) (h : '.' ∉ cs) :
    splitAtDotRev cs = none := by
  induction cs with
  | nil => rfl
  | cons c cs ih =>
    have hc : ¬(c = '.') := fun hc => h (hc ▸ List.mem_cons_self c cs)
    have hcs : '.' ∉ cs := fun hm => h (List.mem_cons_of_mem c hm)
    simp [splitAtDotRev, hc, ih hcs]

theorem splitAtDotRev_append (e st : List Char) (h : '.' ∉ e) :
    splitAtDotRev (e ++ '.' :: st) = some (e, st) := by
  induction e with
  | nil => simp [splitAtDotRev]
  | cons c cs ih =>
    have hc : ¬(c = '.') := fun hc => h (hc ▸ List.mem_cons_self c cs)
    have hcs : '.' ∉ cs := fun hm => h (List.mem_cons_of_mem c hm)
    simp [splitAtDotRev, hc, ih hcs]

theorem extension_of_noDot (s : String) (h : noDot s) : extension s = none := by
  have h' : '.' ∉ s.data.reverse := by
    simpa [List.mem_reverse] using h
  simp [extension, splitAtDotRev_of_not_mem _ h']

theorem fileStem_of_noDot (s : String) (h : noDot s) : fileStem s = s := by
  have h' : '.' ∉ s.data.reverse := by
    simpa [List.mem_reverse] using h
  simp [fileStem, splitAtDotRev_of_not_mem _ h']

theorem extension_append_dot (s e : String) (hs : s.data ≠ []) (he : noDot e) :
    extension (s ++ "." ++ e) = some e := by
  have hrev : (s ++ "." ++ e).data.reverse
      = e.data.reverse ++ '.' :: s.data.reverse := by
    simp [data_append]
  have he' : '.' ∉ e.data.reverse := by
    simpa [List.mem_reverse] using he
  have hst : ¬(s.data.reverse = []) := by
    simpa using hs
  simp [extension, hrev, splitAtDotRev_append _ _ he', hst, mk_data]

theorem fileStem_append_dot (s e : String) (hs : s.data ≠ []) (he : noDot e) :
    fileStem (s ++ "." ++ e) = s := by
  have hrev : (s ++ "." ++ e).data.reverse
      = e.data.reverse ++ '.' :: s.data.reverse := by
    simp [data_append]
  have he' : '.' ∉ e.data.reverse := by
    simpa [List.mem_reverse] using he
  have hst : ¬(s.data.reverse = []) := by
    simpa using hs
  simp [fileStem, hrev, splitAtDotRev_append _ _ he', hst, mk_data]

theorem noDot_append (s t : String) (hs : noDot s) (ht : noDot t) :
    noDot (s ++ t) := by
  unfold noDot at *
  simp [data_append, hs, ht]

theorem hexDigit_ne_dot : ∀ m, m < 16 → hexDigit m ≠ '.' := by decide

theorem noDot_hexDigitsAux (k n : Nat) : '.' ∉ hexDigitsAux k n := by
  induction k generalizing n with
  | zero => simp [hexDigitsAux]
  | succ k ih =>
    intro hm
    rcases List.mem_append.mp hm with h | h
    · exact ih _ h
    · have hd : '.' = hexDigit (n % 16) := by simpa using h
      exact hexDigit_ne_dot _ (Nat.mod_lt _ (by norm_num)) hd.symm

theorem noDot_hex16 (n : Nat) : noDot (hex16 n) := by
  unfold noDot hex16
  exact noDot_hexDigitsAux 16 n

theorem length_hexDigitsAux (k n : Nat) : (hexDigitsAux k n).length = k := by
  induction k generalizing n with
  | zero => rfl
  | succ k ih => simp [hexDigitsAux, ih]

theorem hex16_data_ne_nil (n : Nat) : (hex16 n).data ≠ [] := by
  have hlen : (hex16 n).data.length = 16 := length_hexDigitsAux 16 n
  intro h
  rw [h] at hlen
  simp at hlen

theorem noDot_itemBase (s : Nat) (nonce : String) (h : noDot nonce) :
    noDot (itemBase s nonce) :=
  noDot_append _ _ (noDot_append _ _ (noDot_hex16 s) (by decide)) h

theorem itemBase_data_ne_nil (s : Nat) (nonce : String) :
    (itemBase s nonce).data ≠ [] := by
  intro h
  have hlen := congrArg List.length h
  simp [itemBase, data_append, hex16, length_hexDigitsAux] at hlen

theorem extension_itemBase (s : Nat) (nonce : String) (h : noDot nonce) :
    extension (itemBase s nonce) = none :=
  extension_of_noDot _ (noDot_itemBase s nonce h)

theorem fileStem_data_ne_nil (name : String) (h : name.data ≠ []) :
    (fileStem name).data ≠ [] := by
  unfold fileStem
  cases hsp : splitAtDotRev name.data.reverse with
  | none => exact h
  | some p =>
    rcases p with ⟨extRev, stemRev⟩
    by_cases hst : stemRev = []
    · simp [hst]
      exact h
    · simp [hst]

theorem extension_withExtension (name e : String) (hn : name.data ≠ [])
    (he : noDot e) : extension (withExtension name e) = some e :=
  extension_append_dot _ _ (fileStem_data_ne_nil name hn) he

theorem fileStem_withExtension (name e : String) (hn : name.data ≠ [])
    (he : noDot e) : fileStem (withExtension name e) = fileStem name :=
  fileStem_append_dot _ _ (fileStem_data_ne_nil name hn) he

theorem withExtension_of_noDot (name e : String) (h : noDot name) :
    withExtension name e = name ++ "." ++ e := by
  unfold withExtension
  rw [fileStem_of_noDot name h]

/-! ## Lemmas on the loop body of pop -/

theorem popGo_skip_mem {T : Type} (dec : Bytes → Option T) (dir : List Entry)
    (e : Entry) (hmem : e ∈ dir) (hext : (extension e.name).isSome) :
    e ∈ (popGo dec dir).2 := by
  induction dir with
  | nil => cases hmem
  | cons f fs ih =>
    rcases List.mem_cons.mp hmem with rfl | hmem'
    · cases hx : extension e.name with
      | none => rw [hx] at hext; cases hext
      | some x => simp [popGo, hx]
    · cases hx : extension f.name with
      | none =>
        cases hd : dec f.content with
        | none => simp [popGo, hx, hd, List.mem_cons]; right; exact hmem'
        | some u => simp [popGo, hx, hd, List.mem_cons]; right; exact hmem'
      | some x =>
        simp [popGo, hx, List.mem_cons]
        right
        exact ih hmem'

theorem popGo_ok_some {T : Type} (dec : Bytes → Option T) (dir : List Entry)
    (t : T) (h : (popGo dec dir).1 = .ok (some t)) :
    ∃ pre e post, dir = pre ++ e :: post
      ∧ (∀ x ∈ pre, (extension x.name).isSome)
      ∧ extension e.name = none
      ∧ dec e.content = some t
      ∧ (popGo dec dir).2
          = pre ++ (⟨withExtension e.name "pop", e.content⟩ : Entry) :: post := by
  induction dir with
  | nil => simp [popGo] at h
  | cons f fs ih =>
    cases hx : extension f.name with
    | some x =>
      rw [show popGo dec (f :: fs)
            = ((popGo dec fs).1, f :: (popGo dec fs).2) by simp [popGo, hx]] at h ⊢
      obtain ⟨pre, e, post, hdir, hpre, hexte, hdece, hres⟩ := ih h
      refine ⟨f :: pre, e, post, by simp [hdir], ?_, hexte, hdece, by simp [hres]⟩
      intro y hy
      rcases List.mem_cons.mp hy with rfl | hy'
      · simp [hx]
      · exact hpre y hy'
    | none =>
      cases hd : dec f.content with
      | none => simp [popGo, hx, hd] at h
      | some u =>
        have hu : u = t := by simpa [popGo, hx, hd] using h
        exact ⟨[], f, fs, rfl, by simp, hx, by rw [hd, hu],
          by simp [popGo, hx, hd]⟩

theorem popGo_error {T : Type} (dec : Bytes → Option T) (dir : List Entry)
    (err : QError) (h : (popGo dec dir).1 = .error err) :
    err = .decodeError ∧ (popGo dec dir).2 = dir
      ∧ ∃ pre e post, dir = pre ++ e :: post
        ∧ (∀ x ∈ pre, (extension x.name).isSome)
        ∧ extension e.name = none
        ∧ dec e.content = none := by
  induction dir with
  | nil => simp [popGo] at h
  | cons f fs ih =>
    cases hx : extension f.name with
    | some x =>
      rw [show popGo dec (f :: fs)
            = ((popGo dec fs).1, f :: (popGo dec fs).2) by simp [popGo, hx]] at h ⊢
      obtain ⟨herr, hdir, pre, e, post, hdec', hpre, hexte, hdece⟩ := ih h
      refine ⟨herr, by simp [hdir], f :: pre, e, post, by simp [hdec'], ?_, hexte, hdece⟩
      intro y hy
      rcases List.mem_cons.mp hy with rfl | hy'
      · simp [hx]
      · exact hpre y hy'
    | none =>
      cases hd : dec f.content with
      | none =>
        have herr : QError.decodeError = err := by simpa [popGo, hx, hd] using h
        exact ⟨herr.symm, by simp [popGo, hx, hd], [], f, fs, rfl, by simp, hx, hd⟩
      | some u => simp [popGo, hx, hd] at h

theorem popGo_ok_none {T : Type} (dec : Bytes → Option T) (dir : List Entry)
    (h : ∀ e ∈ dir, (extension e.name).isSome) :
    popGo dec dir = (.ok none, dir) := by
  induction dir with
  | nil => rfl
  | cons f fs ih =>
    have hf := h f (List.mem_cons_self f fs)
    cases hx : extension f.name with
    | none => rw [hx] at hf; cases hf
    | some x =>
      have hfs := ih fun e he => h e (List.mem_cons_of_mem f he)
      simp [popGo, hx, hfs]

theorem recoverEntry_of_other_ext (e : Entry) (x : String)
    (hx : extension e.name = some x) (hne : x ≠ "pop") : recoverEntry e = e := by
  simp [recoverEntry, hx, hne]

theorem str_ext {s t : String} (h : s.data = t.data) : s = t :=
  congrArg String.mk h

theorem pop_single {T : Type} (dec : Bytes → Option T) (name : String)
    (c : Bytes) (s : Nat) (t : T) (hname : extension name = none)
    (hdec : dec c = some t) :
    pop dec ⟨s, [⟨name, c⟩]⟩
      = (.ok (some t), ⟨s, [⟨withExtension name "pop", c⟩]⟩) := by
  simp [pop, popGo, hname, hdec]

theorem pop_single_suffixed {T : Type} (dec : Bytes → Option T) (name : String)
    (c : Bytes) (s : Nat) (x : String) (hx : extension name = some x) :
    pop dec ⟨s, [⟨name, c⟩]⟩ = (.ok none, ⟨s, [⟨name, c⟩]⟩) := by
  simp [pop, popGo, hx]

theorem flush_single_pop (name : String) (c : Bytes) (s : Nat)
    (hx : extension name = some "pop") :
    flush ⟨s, [⟨name, c⟩]⟩ = ⟨s, []⟩ := by
  simp [flush, hx]

theorem recover_single_pop (name : String) (c : Bytes) (s : Nat)
    (hx : extension name = some "pop") :
    recover ⟨s, [⟨name, c⟩]⟩ = ⟨s, [⟨fileStem name, c⟩]⟩ := by
  simp [recover, recoverEntry, hx]

/-! ## The claims -/

/-- Claim C10: pop considers only directory entries whose file names have no
extension at all; every entry carrying any extension (not just the state
suffixes) is left in the directory untouched, and any returned payload is
decoded from an extension-less entry. -/
theorem pop_skips_every_extension {T : Type} (dec : Bytes → Option T)
    (q : QueueState) :
    (∀ e ∈ q.dir, (extension e.name).isSome → e ∈ (pop dec q).2.dir)
    ∧ (∀ t, (pop dec q).1 = .ok (some t) →
        ∃ e ∈ q.dir, extension e.name = none ∧ dec e.content = some t) := by
  constructor
  · intro e he hx
    exact popGo_skip_mem dec q.dir e he hx
  · intro t ht
    obtain ⟨pre, e, post, hdir, _, hexte, hdece, _⟩ := popGo_ok_some dec q.dir t ht
    exact ⟨e, by simp [hdir], hexte, hdece⟩

/-- Witness for C10 at a concrete directory: a stray `data.json` survives pop
untouched, and the payload pop returned came from the extension-less entry. -/
theorem pop_skips_every_extension_witness :
    (⟨"data.json", [7]⟩ : Entry)
        ∈ (pop natDec ⟨0, [⟨"data.json", [7]⟩, ⟨"0000000000000000-n", [5]⟩]⟩).2.dir
    ∧ ∃ e ∈ [(⟨"data.json", [7]⟩ : Entry), ⟨"0000000000000000-n", [5]⟩],
        extension e.name = none ∧ natDec e.content = some 5 :=
  ⟨(pop_skips_every_extension natDec
      ⟨0, [⟨"data.json", [7]⟩, ⟨"0000000000000000-n", [5]⟩]⟩).1
      ⟨"data.json", [7]⟩ (by simp) (by decide),
   (pop_skips_every_extension natDec
      ⟨0, [⟨"data.json", [7]⟩, ⟨"0000000000000000-n", [5]⟩]⟩).2 5 rfl⟩

/-- Claim C9: no queue operation returns, deletes, or renames an Incoming
(`.inc`) file: such an entry survives pop, flush and recover untouched, and
pop's payload always comes from a Visible (extension-less) file. -/
theorem incoming_never_touched {T : Type} (dec : Bytes → Option T)
    (q : QueueState) :
    (∀ e ∈ q.dir, extension e.name = some "inc" →
        e ∈ (pop dec q).2.dir ∧ e ∈ (flush q).dir ∧ e ∈ (recover q).dir)
    ∧ (∀ t, (pop dec q).1 = .ok (some t) →
        ∃ e ∈ q.dir, extension e.name = none ∧ dec e.content = some t) := by
  constructor
  · intro e he hx
    refine ⟨popGo_skip_mem dec q.dir e he (by simp [hx]), ?_, ?_⟩
    · unfold flush
      simp only [List.mem_filter]
      exact ⟨he, by simp [hx]⟩
    · unfold recover
      have := List.mem_map_of_mem recoverEntry he
      rwa [recoverEntry_of_other_ext e "inc" hx (by decide)] at this
  · intro t ht
    obtain ⟨pre, e, post, hdir, _, hexte, hdece, _⟩ := popGo_ok_some dec q.dir t ht
    exact ⟨e, by simp [hdir], hexte, hdece⟩

/-- Witness for C9 at a concrete directory holding one abandoned `.inc` file
and one visible file. -/
theorem incoming_never_touched_witness :
    ((⟨"0000000000000000-m.inc", [9]⟩ : Entry)
        ∈ (pop natDec ⟨0, [⟨"0000000000000000-m.inc", [9]⟩,
            ⟨"0000000000000001-n", [4]⟩]⟩).2.dir
      ∧ (⟨"0000000000000000-m.inc", [9]⟩ : Entry)
        ∈ (flush ⟨0, [⟨"0000000000000000-m.inc", [9]⟩,
            ⟨"0000000000000001-n", [4]⟩]⟩).dir
      ∧ (⟨"0000000000000000-m.inc", [9]⟩ : Entry)
        ∈ (recover ⟨0, [⟨"0000000000000000-m.inc", [9]⟩,
            ⟨"0000000000000001-n", [4]⟩]⟩).dir)
    ∧ ∃ e ∈ [(⟨"0000000000000000-m.inc", [9]⟩ : Entry),
          ⟨"0000000000000001-n", [4]⟩],
        extension e.name = none ∧ natDec e.content = some 4 :=
  ⟨(incoming_never_touched natDec ⟨0, [⟨"0000000000000000-m.inc", [9]⟩,
        ⟨"0000000000000001-n", [4]⟩]⟩).1
      ⟨"0000000000000000-m.inc", [9]⟩ (by simp) (by decide),
   (incoming_never_touched natDec ⟨0, [⟨"0000000000000000-m.inc", [9]⟩,
        ⟨"0000000000000001-n", [4]⟩]⟩).2 4 rfl⟩

/-- Claim C1 is false as stated: here pop surfaces a decode error (so it did
open and decode the selected Visible file), yet afterwards no file in the
directory carries the `.pop` Consumed suffix and the directory is unchanged —
had the rename preceded the decode, the selected file would be Consumed. -/
theorem pop_rename_first_counterexample :
    (pop natDec ⟨0, [⟨"0000000000000000-n", []⟩]⟩).1 = .error .decodeError
    ∧ (pop natDec ⟨0, [⟨"0000000000000000-n", []⟩]⟩).2.dir
        = [⟨"0000000000000000-n", []⟩]
    ∧ ∀ e ∈ (pop natDec ⟨0, [⟨"0000000000000000-n", []⟩]⟩).2.dir,
        extension e.name ≠ some "pop" := by
  refine ⟨rfl, rfl, by decide⟩

/-- Claim C1 (amended): for every selected Visible file, pop opens and decodes
it first, and only after a successful decode renames it to the `.pop`
Consumed suffix; the payload is returned after both steps, and any error
leaves the directory exactly as it was (in particular a decode failure
performs no rename). -/
theorem pop_decode_then_rename {T : Type} (dec : Bytes → Option T)
    (q : QueueState) :
    (∀ t, (pop dec q).1 = .ok (some t) →
      ∃ pre e post, q.dir = pre ++ e :: post
        ∧ (∀ x ∈ pre, (extension x.name).isSome)
        ∧ extension e.name = none
        ∧ dec e.content = some t
        ∧ (pop dec q).2.dir
            = pre ++ (⟨withExtension e.name "pop", e.content⟩ : Entry) :: post)
    ∧ (∀ err, (pop dec q).1 = .error err → (pop dec q).2 = q) := by
  constructor
  · intro t ht
    exact popGo_ok_some dec q.dir t ht
  · intro err herr
    obtain ⟨-, hdir, -⟩ := popGo_error dec q.dir err herr
    show ({ q with dir := (popGo dec q.dir).2 } : QueueState) = q
    rw [hdir]

/-- Witness for the amended C1 at a concrete one-file spool: the pop succeeds,
the selected file is decoded and then renamed to the `.pop` name. -/
theorem pop_decode_then_rename_witness :
    ∃ pre e post,
      ([⟨"0000000000000000-n", [5]⟩] : List Entry) = pre ++ e :: post
      ∧ (∀ x ∈ pre, (extension x.name).isSome)
      ∧ extension e.name = none
      ∧ natDec e.content = some 5
      ∧ (pop natDec ⟨0, [⟨"0000000000000000-n", [5]⟩]⟩).2.dir
          = pre ++ (⟨withExtension e.name "pop", e.content⟩ : Entry) :: post :=
  (pop_decode_then_rename natDec ⟨0, [⟨"0000000000000000-n", [5]⟩]⟩).1 5 rfl

/-- Claim C5 is false as stated: after this failing decode the file does not
remain in the Consumed state — it is still Visible (its name has no
extension), and no `.pop` file exists. -/
theorem pop_error_not_consumed_counterexample :
    (pop natDec ⟨3, [⟨"00000000000000ff-z", [1, 2]⟩]⟩).1 = .error .decodeError
    ∧ visibleNames (pop natDec ⟨3, [⟨"00000000000000ff-z", [1, 2]⟩]⟩).2.dir
        = ["00000000000000ff-z"]
    ∧ ∀ e ∈ (pop natDec ⟨3, [⟨"00000000000000ff-z", [1, 2]⟩]⟩).2.dir,
        extension e.name ≠ some "pop" := by
  refine ⟨rfl, rfl, by decide⟩

/-- Claim C5 (amended): when decoding the selected file's payload fails, the
decode error is returned to the caller and the directory is left exactly as it
was: the selected file is not lost and stays Visible (the rename to the
Consumed suffix never happens). -/
theorem pop_decode_fail_leaves_visible {T : Type} (dec : Bytes → Option T)
    (q : QueueState) (h : (pop dec q).1 = .error .decodeError) :
    (pop dec q).2 = q
    ∧ ∃ pre e post, q.dir = pre ++ e :: post
        ∧ (∀ x ∈ pre, (extension x.name).isSome)
        ∧ extension e.name = none
        ∧ dec e.content = none := by
  obtain ⟨-, hdir, hdecomp⟩ := popGo_error dec q.dir .decodeError h
  constructor
  · show ({ q with dir := (popGo dec q.dir).2 } : QueueState) = q
    rw [hdir]
  · exact hdecomp

/-- Witness for the amended C5 at a concrete one-file spool with malformed
content. -/
theorem pop_decode_fail_leaves_visible_witness :
    (pop natDec ⟨3, [⟨"00000000000000aa-w", [8, 8]⟩]⟩).2
        = (⟨3, [⟨"00000000000000aa-w", [8, 8]⟩]⟩ : QueueState)
    ∧ ∃ pre e post,
        ([⟨"00000000000000aa-w", [8, 8]⟩] : List Entry) = pre ++ e :: post
        ∧ (∀ x ∈ pre, (extension x.name).isSome)
        ∧ extension e.name = none
        ∧ natDec e.content = none :=
  pop_decode_fail_leaves_visible natDec ⟨3, [⟨"00000000000000aa-w", [8, 8]⟩]⟩ rfl

/-- Claim C8: a push failing at any staging step (exclusive create, encoded
write, final rename) returns the error to the caller, creates no Visible
(suffix-less) file, and leaves the per-handle counter unchanged; a fully
successful push returns ok and, as long as the `u32` counter does not wrap
(`q.seq < 2^32 - 1`), increments the counter by exactly one. -/
theorem push_failure_atomic {T : Type} (enc : T → Bytes) (nonce : String)
    (q : QueueState) (x : T) (o : PushOutcome) :
    (o ≠ .ok →
      (push enc nonce o q x).1 = .error .ioError
      ∧ visibleNames (push enc nonce o q x).2.dir = visibleNames q.dir
      ∧ (push enc nonce o q x).2.seq = q.seq)
    ∧ (o = .ok →
      (push enc nonce o q x).1 = .ok ()
      ∧ (q.seq < 2 ^ 32 - 1 →
          (push enc nonce o q x).2.seq = q.seq + 1)) := by
  have hinc : extension (withExtension (itemBase q.seq nonce) "inc") = some "inc" :=
    extension_withExtension _ _ (itemBase_data_ne_nil _ _) (by decide)
  constructor
  · intro ho
    cases o with
    | createFail => exact ⟨rfl, rfl, rfl⟩
    | writeFail w =>
      refine ⟨rfl, ?_, rfl⟩
      simp [push, visibleNames, List.filter_append, hinc]
    | renameFail =>
      refine ⟨rfl, ?_, rfl⟩
      simp [push, visibleNames, List.filter_append, hinc]
    | ok => exact absurd rfl ho
  · rintro rfl
    refine ⟨rfl, fun hseq => ?_⟩
    show (q.seq + 1) % 2 ^ 32 = q.seq + 1
    exact Nat.mod_eq_of_lt (by omega)

/-- Witness for C8: a push whose serialized write fails on an empty spool, and
a successful push on the same spool. -/
theorem push_failure_atomic_witness :
    ((push natEnc "n" (.writeFail [3]) ⟨0, []⟩ 5).1 = .error .ioError
      ∧ visibleNames (push natEnc "n" (.writeFail [3]) ⟨0, []⟩ 5).2.dir
          = visibleNames (⟨0, []⟩ : QueueState).dir
      ∧ (push natEnc "n" (.writeFail [3]) ⟨0, []⟩ 5).2.seq = 0)
    ∧ ((push natEnc "n" .ok ⟨0, []⟩ 5).1 = .ok ()
      ∧ (push natEnc "n" .ok ⟨0, []⟩ 5).2.seq = 0 + 1) :=
  ⟨(push_failure_atomic natEnc "n" ⟨0, []⟩ 5 (.writeFail [3])).1 (by decide),
   ((push_failure_atomic natEnc "n" ⟨0, []⟩ 5 .ok).2 rfl).1,
   ((push_failure_atomic natEnc "n" ⟨0, []⟩ 5 .ok).2 rfl).2 (by norm_num)⟩

/-- Claim C7 is false as stated: the suffix the code attaches mid-write is
`.inc`, not `.incoming`, and the suffix after selection is `.pop`, not
`.consumed`, as these concrete push and pop runs show. -/
theorem name_grammar_counterexample :
    (push natEnc "n" .renameFail ⟨0, []⟩ 5).2.dir
      = [⟨"0000000000000000-n.inc", [5]⟩]
    ∧ extension "0000000000000000-n.inc" = some "inc"
    ∧ (some "inc" : Option String) ≠ some "incoming"
    ∧ (pop natDec (push natEnc "n" .ok ⟨0, []⟩ 5).2).2.dir
      = [⟨"0000000000000000-n.pop", [5]⟩]
    ∧ extension "0000000000000000-n.pop" = some "pop"
    ∧ (some "pop" : Option String) ≠ some "consumed" := by
  refine ⟨rfl, rfl, by decide, rfl, rfl, by decide⟩

/-- Claim C7 (amended): every item file name follows the grammar
`<order-key>-<nonce>`, the order-key being the sixteen-hex-digit counter; a
name with no suffix is Visible, the mid-write staging suffix is `.inc`, and
the suffix after selection is `.pop`. -/
theorem name_grammar (s : Nat) (nonce : String) (h : noDot nonce) :
    itemBase s nonce = hex16 s ++ "-" ++ nonce
    ∧ extension (itemBase s nonce) = none
    ∧ withExtension (itemBase s nonce) "inc" = itemBase s nonce ++ ".inc"
    ∧ extension (withExtension (itemBase s nonce) "inc") = some "inc"
    ∧ withExtension (itemBase s nonce) "pop" = itemBase s nonce ++ ".pop"
    ∧ extension (withExtension (itemBase s nonce) "pop") = some "pop" := by
  have hb : noDot (itemBase s nonce) := noDot_itemBase s nonce h
  refine ⟨rfl, extension_itemBase s nonce h, ?_,
    extension_withExtension _ _ (itemBase_data_ne_nil _ _) (by decide), ?_,
    extension_withExtension _ _ (itemBase_data_ne_nil _ _) (by decide)⟩
  · rw [withExtension_of_noDot _ _ hb]
    exact str_ext (by simp [data_append])
  · rw [withExtension_of_noDot _ _ hb]
    exact str_ext (by simp [data_append])

/-- Witness for the amended C7 at counter value 0 and nonce `n`. -/
theorem name_grammar_witness :
    itemBase 0 "n" = hex16 0 ++ "-" ++ "n"
    ∧ extension (itemBase 0 "n") = none
    ∧ withExtension (itemBase 0 "n") "inc" = itemBase 0 "n" ++ ".inc"
    ∧ extension (withExtension (itemBase 0 "n") "inc") = some "inc"
    ∧ withExtension (itemBase 0 "n") "pop" = itemBase 0 "n" ++ ".pop"
    ∧ extension (withExtension (itemBase 0 "n") "pop") = some "pop" :=
  name_grammar 0 "n" (by decide)

/-- Claim C4: pushing any item onto an empty queue and then popping returns
exactly that item (the codec round-trips), and a second pop on the then-empty
queue returns empty rather than blocking or erroring. -/
theorem push_pop_roundtrip {T : Type} (enc : T → Bytes) (dec : Bytes → Option T)
    (nonce : String) (s : Nat) (x : T)
    (hrt : dec (enc x) = some x) (hnd : noDot nonce) :
    (pop dec (push enc nonce .ok ⟨s, []⟩ x).2).1 = .ok (some x)
    ∧ (pop dec (pop dec (push enc nonce .ok ⟨s, []⟩ x).2).2).1 = .ok none := by
  have hbase : extension (itemBase s nonce) = none := extension_itemBase s nonce hnd
  have h1 : (push enc nonce .ok ⟨s, []⟩ x).2
      = ⟨(s + 1) % 2 ^ 32, [⟨itemBase s nonce, enc x⟩]⟩ := rfl
  have h2 := pop_single dec (itemBase s nonce) (enc x) ((s + 1) % 2 ^ 32) x hbase hrt
  have hpopx : extension (withExtension (itemBase s nonce) "pop") = some "pop" :=
    extension_withExtension _ _ (itemBase_data_ne_nil _ _) (by decide)
  have h3 := pop_single_suffixed dec (withExtension (itemBase s nonce) "pop")
    (enc x) ((s + 1) % 2 ^ 32) "pop" hpopx
  constructor
  · rw [h1, h2]
  · rw [h1, h2, h3]

/-- Witness for C4: pushing 5 through the concrete codec and popping twice. -/
theorem push_pop_roundtrip_witness :
    (pop natDec (push natEnc "n" .ok ⟨0, []⟩ 5).2).1 = .ok (some 5)
    ∧ (pop natDec (pop natDec (push natEnc "n" .ok ⟨0, []⟩ 5).2).2).1
        = .ok none :=
  push_pop_roundtrip natEnc natDec "n" 0 5 rfl (by decide)

/-- Claim C2: push an item, pop it (it is now Consumed), do not flush, call
recover; a subsequent pop returns the same payload again — at-least-once
delivery. -/
theorem pop_recover_redelivers {T : Type} (enc : T → Bytes)
    (dec : Bytes → Option T) (nonce : String) (s : Nat) (x : T)
    (hrt : dec (enc x) = some x) (hnd : noDot nonce) :
    (pop dec (push enc nonce .ok ⟨s, []⟩ x).2).1 = .ok (some x)
    ∧ (pop dec (recover (pop dec (push enc nonce .ok ⟨s, []⟩ x).2).2)).1
        = .ok (some x) := by
  have hbase : extension (itemBase s nonce) = none := extension_itemBase s nonce hnd
  have h1 : (push enc nonce .ok ⟨s, []⟩ x).2
      = ⟨(s + 1) % 2 ^ 32, [⟨itemBase s nonce, enc x⟩]⟩ := rfl
  have h2 := pop_single dec (itemBase s nonce) (enc x) ((s + 1) % 2 ^ 32) x hbase hrt
  have hpopx : extension (withExtension (itemBase s nonce) "pop") = some "pop" :=
    extension_withExtension _ _ (itemBase_data_ne_nil _ _) (by decide)
  have hstem : fileStem (withExtension (itemBase s nonce) "pop")
      = itemBase s nonce := by
    rw [fileStem_withExtension _ _ (itemBase_data_ne_nil _ _) (by decide)]
    exact fileStem_of_noDot _ (noDot_itemBase s nonce hnd)
  have h3 : recover ⟨(s + 1) % 2 ^ 32,
        [⟨withExtension (itemBase s nonce) "pop", enc x⟩]⟩
      = ⟨(s + 1) % 2 ^ 32, [⟨itemBase s nonce, enc x⟩]⟩ := by
    rw [recover_single_pop _ _ _ hpopx, hstem]
  constructor
  · rw [h1, h2]
  · rw [h1, h2, h3, h2]

/-- Witness for C2 with the concrete codec: the recovered item is popped
again. -/
theorem pop_recover_redelivers_witness :
    (pop natDec (push natEnc "n" .ok ⟨0, []⟩ 5).2).1 = .ok (some 5)
    ∧ (pop natDec (recover (pop natDec (push natEnc "n" .ok ⟨0, []⟩ 5).2).2)).1
        = .ok (some 5) :=
  pop_recover_redelivers natEnc natDec "n" 0 5 rfl (by decide)

/-- Claim C3: push an item, pop it, flush; a subsequent recover followed by
pop returns empty — the flushed item is permanently deleted and recover
cannot restore it. -/
theorem flush_is_permanent {T : Type} (enc : T → Bytes)
    (dec : Bytes → Option T) (nonce : String) (s : Nat) (x : T)
    (hrt : dec (enc x) = some x) (hnd : noDot nonce) :
    (pop dec (push enc nonce .ok ⟨s, []⟩ x).2).1 = .ok (some x)
    ∧ (pop dec (recover (flush (pop dec (push enc nonce .ok ⟨s, []⟩ x).2).2))).1
        = .ok none := by
  have hbase : extension (itemBase s nonce) = none := extension_itemBase s nonce hnd
  have h1 : (push enc nonce .ok ⟨s, []⟩ x).2
      = ⟨(s + 1) % 2 ^ 32, [⟨itemBase s nonce, enc x⟩]⟩ := rfl
  have h2 := pop_single dec (itemBase s nonce) (enc x) ((s + 1) % 2 ^ 32) x hbase hrt
  have hpopx : extension (withExtension (itemBase s nonce) "pop") = some "pop" :=
    extension_withExtension _ _ (itemBase_data_ne_nil _ _) (by decide)
  have h3 : flush ⟨(s + 1) % 2 ^ 32,
        [⟨withExtension (itemBase s nonce) "pop", enc x⟩]⟩
      = ⟨(s + 1) % 2 ^ 32, []⟩ := flush_single_pop _ _ _ hpopx
  have h4 : recover ⟨(s + 1) % 2 ^ 32, []⟩ = ⟨(s + 1) % 2 ^ 32, []⟩ := rfl
  have h5 : pop dec (⟨(s + 1) % 2 ^ 32, []⟩ : QueueState)
      = (.ok none, ⟨(s + 1) % 2 ^ 32, []⟩) := rfl
  constructor
  · rw [h1, h2]
  · rw [h1, h2, h3, h4, h5]

/-- Witness for C3 with the concrete codec: after flush, recover restores
nothing and pop is empty. -/
theorem flush_is_permanent_witness :
    (pop natDec (push natEnc "n" .ok ⟨0, []⟩ 5).2).1 = .ok (some 5)
    ∧ (pop natDec (recover (flush (pop natDec
        (push natEnc "n" .ok ⟨0, []⟩ 5).2).2))).1 = .ok none :=
  flush_is_permanent natEnc natDec "n" 0 5 rfl (by decide)

theorem lexLt_irrefl : ∀ xs : List Char, lexLt xs xs = false := by
  intro xs
  induction xs with
  | nil => rfl
  | cons a as ih => simp [lexLt, ih]

theorem lexLt_asymm : ∀ xs ys : List Char,
    lexLt xs ys = true → lexLt ys xs = false := by
  intro xs
  induction xs with
  | nil =>
    intro ys h
    cases ys with
    | nil => simp [lexLt] at h
    | cons b bs => rfl
  | cons a as ih =>
    intro ys h
    cases ys with
    | nil => simp [lexLt] at h
    | cons b bs =>
      by_cases hab : a.toNat < b.toNat
      · have : ¬ b.toNat < a.toNat := by omega
        simp [lexLt, this, hab]
      · by_cases hba : b.toNat < a.toNat
        · simp [lexLt, hab, hba] at h
        · have htail : lexLt as bs = true := by simpa [lexLt, hab, hba] using h
          simp [lexLt, hab, hba, ih bs htail]

theorem lexLt_append_of_lt : ∀ (xs ys as bs : List Char),
    xs.length = ys.length → lexLt xs ys = true →
    lexLt (xs ++ as) (ys ++ bs) = true := by
  intro xs
  induction xs with
  | nil =>
    intro ys as bs hlen h
    cases ys with
    | nil => simp [lexLt] at h
    | cons b bs' => simp at hlen
  | cons a as' ih =>
    intro ys as bs hlen h
    cases ys with
    | nil => simp at hlen
    | cons b bs' =>
      by_cases hab : a.toNat < b.toNat
      · simp [lexLt, hab]
      · by_cases hba : b.toNat < a.toNat
        · simp [lexLt, hab, hba] at h
        · have htail : lexLt as' bs' = true := by simpa [lexLt, hab, hba] using h
          have hlen' : as'.length = bs'.length := by simpa using hlen
          simp [lexLt, hab, hba, ih bs' as bs hlen' htail]

theorem lexLt_append_head : ∀ (xs : List Char) (a b : Char) (as bs : List Char),
    a.toNat < b.toNat → lexLt (xs ++ a :: as) (xs ++ b :: bs) = true := by
  intro xs
  induction xs with
  | nil => intro a b as bs hab; simp [lexLt, hab]
  | cons c cs ih =>
    intro a b as bs hab
    have : ¬ c.toNat < c.toNat := by omega
    simp [lexLt, this, ih a b as bs hab]

theorem hexDigit_mono : ∀ m1 < 16, ∀ m2 < 16, m1 < m2 →
    (hexDigit m1).toNat < (hexDigit m2).toNat := by decide

theorem lexLt_hexDigitsAux : ∀ (k i j : Nat), i < j → j < 16 ^ k →
    lexLt (hexDigitsAux k i) (hexDigitsAux k j) = true := by
  intro k
  induction k with
  | zero => intro i j hij hj; omega
  | succ k ih =>
    intro i j hij hj
    have hq : i / 16 ≤ j / 16 := Nat.div_le_div_right (Nat.le_of_lt hij)
    rcases Nat.lt_or_ge (i / 16) (j / 16) with hlt | hge
    · have hjq : j / 16 < 16 ^ k := by
        have : j < 16 ^ k * 16 := by
          have hp : 16 ^ (k + 1) = 16 ^ k * 16 := pow_succ 16 k
          omega
        omega
      exact lexLt_append_of_lt _ _ _ _
        (by simp [length_hexDigitsAux]) (ih (i / 16) (j / 16) hlt hjq)
    · have heq : i / 16 = j / 16 := by omega
      have hmod : i % 16 < j % 16 := by omega
      show lexLt (hexDigitsAux k (i / 16) ++ [hexDigit (i % 16)])
          (hexDigitsAux k (j / 16) ++ [hexDigit (j % 16)]) = true
      rw [heq]
      exact lexLt_append_head _ _ _ _ _
        (hexDigit_mono (i % 16) (Nat.mod_lt _ (by norm_num)) (j % 16)
          (Nat.mod_lt _ (by norm_num)) hmod)

theorem lexLt_itemBase (nonce : String) (i j : Nat) (hij : i < j)
    (hj : j < 16 ^ 16) :
    lexLt (itemBase i nonce).data (itemBase j nonce).data = true := by
  have hdata : ∀ n : Nat, (itemBase n nonce).data
      = hexDigitsAux 16 n ++ ('-' :: nonce.data) := by
    intro n
    show ((hex16 n ++ "-") ++ nonce).data = _
    rw [data_append, data_append]
    simp [hex16]
  rw [hdata i, hdata j]
  exact lexLt_append_of_lt _ _ _ _ (by simp [length_hexDigitsAux])
    (lexLt_hexDigitsAux 16 i j hij hj)

theorem itemBase_injOn (nonce : String) (i j : Nat) (hij : i < j)
    (hj : j < 16 ^ 16) : itemBase i nonce ≠ itemBase j nonce := by
  intro h
  have hlt := lexLt_itemBase nonce i j hij hj
  rw [h] at hlt
  rw [lexLt_irrefl] at hlt
  cases hlt

theorem nameLe_seqEntry (i j : Nat) (hij : i < j) (hj : j < 16 ^ 16) :
    nameLe (seqEntry i) (seqEntry j) = true := by
  have h := lexLt_asymm _ _ (lexLt_itemBase "n" i j hij hj)
  simp [nameLe, seqEntry, h]

theorem chain_seqEntry : ∀ (m a : Nat), a + m ≤ 16 ^ 16 →
    List.Chain' (fun x y => nameLe x y = true)
      ((List.range' a m).map seqEntry) := by
  intro m
  induction m with
  | zero => intro a h; simp
  | succ m ih =>
    intro a h
    rw [List.range'_succ, List.map_cons]
    cases m with
    | zero => simp
    | succ m' =>
      rw [List.range'_succ, List.map_cons]
      rw [List.chain'_cons]
      refine ⟨nameLe_seqEntry a (a + 1) (by omega) (by omega), ?_⟩
      have := ih (a + 1) (by omega)
      rwa [List.range'_succ, List.map_cons] at this

theorem sortByName_of_chain : ∀ l : List Entry,
    List.Chain' (fun x y => nameLe x y = true) l → sortByName l = l := by
  intro l
  induction l with
  | nil => intro _; rfl
  | cons e es ih =>
    intro hc
    cases es with
    | nil => rfl
    | cons f fs =>
      rw [List.chain'_cons] at hc
      show insertEntry e (sortByName (f :: fs)) = e :: f :: fs
      rw [ih hc.2]
      simp [insertEntry, hc.1]

theorem pull_sort_nil {T : Type} (dec : Bytes → Option T) (q : QueueState)
    (hs : sortByName (q.dir.filter fun e => (extension e.name).isNone) = []) :
    pull dec q = (.ok none, q) := by
  simp only [pull, hs]

theorem pull_sort_cons_some {T : Type} (dec : Bytes → Option T)
    (q : QueueState) (e : Entry) (rest : List Entry) (t : T)
    (hs : sortByName (q.dir.filter fun x => (extension x.name).isNone)
      = e :: rest)
    (hd : dec e.content = some t) :
    pull dec q = (.ok (some t),
      { q with dir := q.dir.filter fun f => !(f.name = e.name : Bool) }) := by
  simp only [pull, hs, hd]

theorem pull_step (a m s : Nat) (hb : a + (m + 1) ≤ 16 ^ 16) :
    pull natDec ⟨s, (List.range' a (m + 1)).map seqEntry⟩
      = (.ok (some a), ⟨s, (List.range' (a + 1) m).map seqEntry⟩) := by
  have hvis : ∀ e ∈ (List.range' a (m + 1)).map seqEntry,
      ((extension e.name).isNone : Bool) = true := by
    intro e he
    obtain ⟨i, -, rfl⟩ := List.mem_map.mp he
    simp [seqEntry, extension_itemBase i "n" (by decide)]
  have hdel : ((List.range' a (m + 1)).map seqEntry).filter
      (fun f => !(f.name = (seqEntry a).name : Bool))
      = (List.range' (a + 1) m).map seqEntry := by
    rw [List.range'_succ, List.map_cons, List.filter_cons]
    simp only [decide_eq_true_eq]
    rw [if_neg (by simp)]
    apply List.filter_eq_self.mpr
    intro e he
    obtain ⟨i, hi, rfl⟩ := List.mem_map.mp he
    rw [List.mem_range'_1] at hi
    have : itemBase a "n" ≠ itemBase i "n" :=
      itemBase_injOn "n" a i (by omega) (by omega)
    simpa [seqEntry] using fun hcontra => this hcontra.symm
  have hchain := chain_seqEntry (m + 1) a hb
  have hs : sortByName
      (((⟨s, (List.range' a (m + 1)).map seqEntry⟩ : QueueState)).dir.filter
        fun x => (extension x.name).isNone)
      = seqEntry a :: (List.range' (a + 1) m).map seqEntry := by
    show sortByName
        (((List.range' a (m + 1)).map seqEntry).filter
          fun x => (extension x.name).isNone) = _
    rw [List.filter_eq_self.mpr hvis, sortByName_of_chain _ hchain,
      List.range'_succ, List.map_cons]
  rw [pull_sort_cons_some natDec _ _ _ a hs rfl]
  show (Except.ok (some a),
      (⟨s, ((List.range' a (m + 1)).map seqEntry).filter
        fun f => !(f.name = (seqEntry a).name : Bool)⟩ : QueueState)) = _
  rw [hdel]

theorem pullRun_range' : ∀ (m a s : Nat), a + m ≤ 16 ^ 16 →
    pullRun (m + 1) ⟨s, (List.range' a m).map seqEntry⟩
      = (List.range' a m).map (fun i => .ok (some i)) ++ [.ok none] := by
  intro m
  induction m with
  | zero =>
    intro a s h
    rfl
  | succ m ih =>
    intro a s h
    have hstep := pull_step a m s h
    rw [show pullRun (m + 1 + 1) ⟨s, (List.range' a (m + 1)).map seqEntry⟩
        = (pull natDec ⟨s, (List.range' a (m + 1)).map seqEntry⟩).1
          :: pullRun (m + 1)
            (pull natDec ⟨s, (List.range' a (m + 1)).map seqEntry⟩).2 from rfl]
    rw [hstep]
    rw [ih (a + 1) s (by omega)]
    rw [List.range'_succ, List.map_cons, List.cons_append]

theorem pushAll_range' : ∀ (m a : Nat) (dir : List Entry), a + m < 2 ^ 32 →
    pushAll (List.range' a m) ⟨a, dir⟩
      = ⟨a + m, dir ++ (List.range' a m).map seqEntry⟩ := by
  intro m
  induction m with
  | zero => intro a dir _; simp [pushAll]
  | succ m ih =>
    intro a dir h
    rw [List.range'_succ]
    show pushAll (List.range' (a + 1) m)
        (push natEnc "n" .ok ⟨a, dir⟩ a).2 = _
    have hone : (push natEnc "n" .ok (⟨a, dir⟩ : QueueState) a).2
        = ⟨a + 1, dir ++ [seqEntry a]⟩ := by
      show (⟨(a + 1) % 2 ^ 32, dir ++ [seqEntry a]⟩ : QueueState) = _
      rw [Nat.mod_eq_of_lt (by omega)]
    rw [hone, ih (a + 1) (dir ++ [seqEntry a]) (by omega)]
    rw [List.map_cons]
    refine congrArg₂ QueueState.mk (by omega) ?_
    rw [List.append_assoc]
    rfl

/-- Claim C6: `pull` (modelled from the spec, src/lib.rs has no such
operation) enumerates all entries, filters to those without a state suffix,
sorts by file name ascending and returns the lexicographically smallest; for
any n below the `u32` counter wrap (in particular n = 100, indices 0..99),
pushing indices 0..n-1 through a single handle and calling pull n+1 times
returns them in strictly ascending index order, one per call, then empty. -/
theorem pull_fifo_range (n : Nat) (hn : n < 2 ^ 32) :
    pullRun (n + 1) (pushAll (List.range n) ⟨0, []⟩)
      = (List.range n).map (fun i => .ok (some i)) ++ [.ok none] := by
  have hpush : pushAll (List.range n) ⟨0, []⟩
      = ⟨n, (List.range' 0 n).map seqEntry⟩ := by
    rw [List.range_eq_range']
    simpa using pushAll_range' n 0 [] (by omega)
  have h16 : (2 : Nat) ^ 32 ≤ 16 ^ 16 := by norm_num
  rw [hpush, List.range_eq_range']
  exact pullRun_range' n 0 n (by omega)

/-- Witness for C6 at n = 100: pulls after pushing indices 0..99 return them
ascending, one per call, then empty. -/
theorem pull_fifo_range_witness :
    pullRun 101 (pushAll (List.range 100) ⟨0, []⟩)
      = (List.range 100).map (fun i => .ok (some i)) ++ [.ok none] :=
  pull_fifo_range 100 (by norm_num)

end Spoolq
